import Mathlib

/-!
Verification development for `hhparser.py`, the PokerOK / GGNetwork
hand-history parser.

The Python source is shallowly embedded below:

* each module-level regular expression (`RE_HAND_HEADER`, `RE_LIMIT`,
  `RE_SEAT`, `RE_BUTTON`, `RE_ACTION`, `RE_RETURN`, `RE_FLOP`, `RE_TURN`,
  `RE_RIVER`, `RE_SUMMARY_POT`, `RE_COLLECTED`) becomes an executable
  matcher over `List Char` that reproduces the Python `re` semantics
  (anchored `match` vs. unanchored `search`, leftmost start position,
  greedy / lazy repetition with backtracking where the character classes
  make it observable, case-insensitive comparison for ASCII);
* `to_float_safe`, `normalize_currency_symbol`, `split_into_hands`,
  `parse_hand` and the filtering loop of `process_input` become Lean
  functions; Python exceptions are modelled with `Except String`
  (the `try/except` of `parse_hand` catches everything, and the filter
  comparison in `process_input` can raise a `TypeError`);
* numeric amounts are modelled as exact rationals: every numeric token the
  program can capture is a non-empty run over digits and dots (commas never
  occur in a captured group), and Python `float` on such a token succeeds
  exactly when the token has at least one digit and at most one dot.

File reading, zip traversal, thread dispatch, CSV writing and the CLI are
out of scope (spec section 1): `process_input` is modelled on the list of
per-file line sequences its collaborators hand it, with futures collected
in submission order exactly as the source does.
-/

namespace HH

/-- Python whitespace class `\s` restricted to ASCII: space, tab, newline,
carriage return, vertical tab, form feed. -/
def isPyWs (c : Char) : Bool :=
  c = ' ' || c = '\t' || c = '\n' || c = '\r' || c = Char.ofNat 11 || c = Char.ofNat 12

/-- Python `\w` restricted to ASCII: letters, digits, underscore. -/
def isWordChar (c : Char) : Bool :=
  c.isAlphanum || c = '_'

/-- The class `[\w\-]` of the hand-id capture in `RE_HAND_HEADER`. -/
def isWordHyphen (c : Char) : Bool :=
  isWordChar c || c = '-'

/-- The class `[\d\.]` used by every numeric capture group. -/
def isDigitDot (c : Char) : Bool :=
  c.isDigit || c = '.'

/-- Case-insensitive character comparison, as `re.I` gives for ASCII. -/
def ciEq (a b : Char) : Bool :=
  a.toLower = b.toLower

/-- Drop a case-insensitive literal from the front; `none` if it is absent. -/
def ciDrop : List Char → List Char → Option (List Char)
  | [], cs => some cs
  | _ :: _, [] => none
  | p :: ps, c :: cs => if ciEq c p then ciDrop ps cs else none

/-- Like `ciDrop` but also returns the original characters that matched,
as a regex group would capture them. -/
def ciTake : List Char → List Char → Option (List Char × List Char)
  | [], cs => some ([], cs)
  | _ :: _, [] => none
  | p :: ps, c :: cs =>
    if ciEq c p then (ciTake ps cs).map (fun r => (c :: r.1, r.2)) else none

/-- The apostrophe character, kept out of string literals. -/
def apos : Char := Char.ofNat 39

/-- Digit list to natural number (empty list reads as 0, which only arises
for the empty integer part of a token such as `.5`). -/
def digitsToNat (cs : List Char) : Nat :=
  cs.foldl (fun a c => a * 10 + (c.toNat - 48)) 0

/-- Python `float` restricted to the tokens this program can feed it: after
`to_float_safe` replaces commas by dots, every reachable argument is a
non-empty string over digits and dots, on which `float` succeeds exactly
when there is at least one digit and at most one dot.  (Python `float`
also accepts signs, exponents and surrounding whitespace, which no capture
group of this program can produce.) -/
def pythonFloat (cs : List Char) : Option ℚ :=
  if cs.all isDigitDot && cs.any Char.isDigit && (cs.filter (fun c => c = '.')).length ≤ 1 then
    let intPart := cs.takeWhile (fun c => c ≠ '.')
    let fracPart := (cs.dropWhile (fun c => c ≠ '.')).drop 1
    some (mkRat (digitsToNat intPart * 10 ^ fracPart.length + digitsToNat fracPart)
      (10 ^ fracPart.length))
  else none

/-- `to_float_safe`: replace commas by dots, then parse; any failure gives
`None`.  The argument is an `Option` because `parse_hand` passes the raw
result of `group`, which is `None` for the optional amount group of
`RE_ACTION`; on `None` the attribute access inside the `try` raises and the
function returns `None`. -/
def to_float_safe : Option String → Option ℚ
  | none => none
  | some s => pythonFloat (s.data.map (fun c => if c = ',' then '.' else c))

/-- `normalize_currency_symbol` (the argument is the optional `cur` group). -/
def normalize_currency_symbol (sym : Option String) : String :=
  match sym with
  | none => ""
  | some s =>
    if s = "" then ""
    else
      let t := String.mk ((s.data.dropWhile isPyWs).reverse.dropWhile isPyWs).reverse
      if t = "€" then "EUR"
      else if t = "$" then "USD"
      else if t = "₽" then "RUB"
      else String.mk (t.data.map Char.toUpper)

/-- `$` of `RE_HAND_HEADER` after the greedy `.*`: the remainder after the
id capture matches `.*$` exactly when it contains no newline, or exactly
one newline as its final character. -/
def dollarOk (cs : List Char) : Bool :=
  cs.all (fun c => c ≠ '\n') ||
    (cs.getLast? = some '\n' && cs.dropLast.all (fun c => c ≠ '\n'))

/-- `RE_HAND_HEADER.match`: `^\s*Hand\s*#\s*(?P<hand_id>[\w\-]+).*$`,
case-insensitive, anchored at the start.  Every quantifier here is
deterministic because the adjacent classes are disjoint; shrinking the
greedy id run can never repair a failing `$`, so the maximal run is the
captured group. -/
def matchHandHeader (s : String) : Option String :=
  (ciDrop ['h', 'a', 'n', 'd'] (s.data.dropWhile isPyWs)).bind fun cs2 =>
    let cs3 := cs2.dropWhile isPyWs
    if cs3.head? = some '#' then
      let cs5 := cs3.tail.dropWhile isPyWs
      let idrun := cs5.takeWhile isWordHyphen
      let rest := cs5.dropWhile isWordHyphen
      if idrun ≠ [] && dollarOk rest then some (String.mk idrun) else none
    else none

/-- Whether a line triggers the segmenter, i.e. `RE_HAND_HEADER` matches. -/
def isHeaderLine (s : String) : Bool :=
  (matchHandHeader s).isSome

/-- Python `line.rstrip` with a newline argument: remove every trailing
newline character. -/
def rstripNewlines (s : String) : String :=
  String.mk (s.data.reverse.dropWhile (fun c => c = '\n')).reverse

/-- The accumulator loop of `split_into_hands`: on a header line a
non-empty accumulator is yielded and reset, every line is appended with
trailing newlines stripped, and a non-empty accumulator is flushed at end
of input. -/
def splitGo (current : List String) : List String → List (List String)
  | [] => if current = [] then [] else [current]
  | l :: ls =>
    if isHeaderLine l then
      if current = [] then splitGo [rstripNewlines l] ls
      else current :: splitGo [rstripNewlines l] ls
    else splitGo (current ++ [rstripNewlines l]) ls

/-- `split_into_hands`. -/
def split_into_hands (lines : List String) : List (List String) :=
  splitGo [] lines

/-- Maximal run of the class `[\d\.]`, at least one character; returns the
captured run and the remainder.  The quantifier is deterministic in every
context this program uses it: the character after the run is never in the
class, so shrinking the greedy run can never help. -/
def digitRun1 (cs : List Char) : Option (List Char × List Char) :=
  let run := cs.takeWhile isDigitDot
  if run = [] then none else some (run, cs.dropWhile isDigitDot)

/-- Maximal run of `\d`, at least one character. -/
def natRun1 (cs : List Char) : Option (List Char × List Char) :=
  let run := cs.takeWhile Char.isDigit
  if run = [] then none else some (run, cs.dropWhile Char.isDigit)

/-- `\s+`: at least one whitespace character, maximal run; returns the rest. -/
def wsRun1 : List Char → Option (List Char)
  | c :: cs => if isPyWs c then some ((c :: cs).dropWhile isPyWs) else none
  | [] => none

/-- `\s+` with the matched run captured (used where a group spans it). -/
def wsTake1 : List Char → Option (List Char × List Char)
  | c :: cs =>
    if isPyWs c then some ((c :: cs).takeWhile isPyWs, (c :: cs).dropWhile isPyWs)
    else none
  | [] => none

/-- `\*+`: at least one star, maximal run (the classes that follow it in
`RE_FLOP`/`RE_TURN`/`RE_RIVER` make the greedy run deterministic). -/
def starRun1 : List Char → Option (List Char)
  | c :: cs => if c = '*' then some ((c :: cs).dropWhile (fun x => x = '*')) else none
  | [] => none

/-- Python `str.strip` with no argument: trim whitespace on both ends. -/
def pyStrip (cs : List Char) : List Char :=
  ((cs.dropWhile isPyWs).reverse.dropWhile isPyWs).reverse

/-- Python `str.lower` for ASCII. -/
def lowerStr (cs : List Char) : List Char :=
  cs.map Char.toLower

/-- The groups of `RE_LIMIT`. -/
structure LimitGroups where
  limit : List Char
  game : List Char
  sb : List Char
  bb : List Char
  cur : Option (List Char)
deriving DecidableEq, Repr

/-- The alternation `NL|PL|FL`. -/
def tryLimitTok (cs : List Char) : Option (List Char × List Char) :=
  match ciTake ['n', 'l'] cs with
  | some r => some r
  | none =>
  match ciTake ['p', 'l'] cs with
  | some r => some r
  | none => ciTake ['f', 'l'] cs

/-- The alternative `Hold\'?em` (optional apostrophe; when the apostrophe
is present, `em` must follow it — the regex would retry without consuming
it, but `em` can never match at an apostrophe). -/
def tryHoldem (cs : List Char) : Option (List Char × List Char) :=
  match ciTake ['h', 'o', 'l', 'd'] cs with
  | none => none
  | some (g1, rest) =>
    match rest with
    | c :: rest2 =>
      if c = apos then
        match ciTake ['e', 'm'] rest2 with
        | some (g2, rest3) => some (g1 ++ c :: g2, rest3)
        | none => none
      else
        match ciTake ['e', 'm'] (c :: rest2) with
        | some (g2, rest3) => some (g1 ++ g2, rest3)
        | none => none
    | [] => none

/-- The alternation `Hold\'?em|Omaha|Short\s*Deck` (tried in source order;
the first letters are distinct, so first match is the engine's match). -/
def tryGame (cs : List Char) : Option (List Char × List Char) :=
  match tryHoldem cs with
  | some r => some r
  | none =>
  match ciTake ['o', 'm', 'a', 'h', 'a'] cs with
  | some r => some r
  | none =>
  match ciTake ['s', 'h', 'o', 'r', 't'] cs with
  | none => none
  | some (g1, rest) =>
    let w := rest.takeWhile isPyWs
    match ciTake ['d', 'e', 'c', 'k'] (rest.dropWhile isPyWs) with
    | some (g2, rest2) => some (g1 ++ w ++ g2, rest2)
    | none => none

/-- The currency alternation of `RE_LIMIT` (first letters distinct). -/
def tryCur (cs : List Char) : Option (List Char × List Char) :=
  match ciTake ['u', 's', 'd'] cs with
  | some r => some r
  | none =>
  match ciTake ['e', 'u', 'r'] cs with
  | some r => some r
  | none =>
  match ciTake ['r', 'u', 'b'] cs with
  | some r => some r
  | none =>
  match ciTake ['c', 'n', 'y'] cs with
  | some r => some r
  | none =>
  match ciTake ['€'] cs with
  | some r => some r
  | none =>
  match ciTake ['$'] cs with
  | some r => some r
  | none => ciTake ['₽'] cs

/-- `(?P<sb>[\d\.]+)/(?P<bb>[\d\.]+)\s*(?P<cur>...)?\)` after the `\(`.
If the currency alternative matches but no `\)` follows, the engine
retries with the optional group empty, which requires `\)` where the
currency began. -/
def parseStakes (cs : List Char) : Option (List Char × List Char × Option (List Char)) := do
  let (sb, cs1) ← digitRun1 cs
  match cs1 with
  | '/' :: cs2 => do
    let (bb, cs3) ← digitRun1 cs2
    let cs4 := cs3.dropWhile isPyWs
    match tryCur cs4 with
    | some (cur, cs5) =>
      if cs5.head? = some ')' then some (sb, bb, some cur)
      else if cs4.head? = some ')' then some (sb, bb, none)
      else none
    | none => if cs4.head? = some ')' then some (sb, bb, none) else none
  | _ => none

/-- The `.*\(…` part of `RE_LIMIT`: the greedy `.*` cannot cross a newline
and prefers the rightmost `(` whose suffix completes the match. -/
def scanParen (ltok gtok : List Char) : List Char → Option LimitGroups
  | [] => none
  | c :: rest =>
    if c = '\n' then none
    else
      match scanParen ltok gtok rest with
      | some g => some g
      | none =>
        if c = '(' then
          match parseStakes rest with
          | some (sb, bb, cur) => some ⟨ltok, gtok, sb, bb, cur⟩
          | none => none
        else none

/-- `RE_LIMIT` anchored at one start position. -/
def matchLimitAt (cs : List Char) : Option LimitGroups := do
  let (ltok, cs1) ← tryLimitTok cs
  let (gtok, cs2) ← tryGame (cs1.dropWhile isPyWs)
  scanParen ltok gtok cs2

/-- `RE_LIMIT.search`: leftmost start position that admits a match. -/
def searchLimit : List Char → Option LimitGroups
  | [] => none
  | c :: rest =>
    match matchLimitAt (c :: rest) with
    | some g => some g
    | none => searchLimit rest

/-- `RE_LIMIT.search` on a line. -/
def matchLimit (s : String) : Option LimitGroups :=
  searchLimit s.data

/-- One seat line parsed by `RE_SEAT`. -/
structure SeatG where
  seat : Nat
  name : List Char
  stack : List Char
deriving DecidableEq, Repr

/-- `\s+\((?P<stack>[\d\.]+)\)`: the tail the lazy name group stops at. -/
def trySeatTail (cs : List Char) : Option (List Char) := do
  let cs1 ← wsRun1 cs
  match cs1 with
  | '(' :: cs2 => do
    let (stk, cs3) ← digitRun1 cs2
    match cs3 with
    | ')' :: _ => some stk
    | _ => none
  | _ => none

/-- The lazy `(?P<name>.+?)` of `RE_SEAT`: shortest non-empty name whose
tail matches; `.` never matches a newline. -/
def seatNameScan (acc : List Char) : List Char → Option (List Char × List Char)
  | [] => none
  | c :: rest =>
    if c = '\n' then none
    else
      match trySeatTail rest with
      | some stk => some (acc ++ [c], stk)
      | none => seatNameScan (acc ++ [c]) rest

/-- `RE_SEAT.match`: `^Seat\s+(?P<seat>\d+):\s+(?P<name>.+?)\s+\((?P<stack>[\d\.]+)\)`. -/
def matchSeat (s : String) : Option SeatG := do
  let cs1 ← ciDrop ['s', 'e', 'a', 't'] s.data
  let cs2 ← wsRun1 cs1
  let (seatDigits, cs3) ← natRun1 cs2
  match cs3 with
  | ':' :: cs4 => do
    let cs5 ← wsRun1 cs4
    let (nm, stk) ← seatNameScan [] cs5
    some ⟨digitsToNat seatDigits, nm, stk⟩
  | _ => none

/-- `(seat|at)\s+(?P<btn>\d+)` tried at one position (alternatives in
source order, each with its own tail). -/
def trySeatAtTail (cs : List Char) : Option Nat :=
  match (do
      let cs1 ← ciDrop ['s', 'e', 'a', 't'] cs
      let cs2 ← wsRun1 cs1
      let (ds, _) ← natRun1 cs2
      pure (digitsToNat ds) : Option Nat) with
  | some n => some n
  | none => do
    let cs1 ← ciDrop ['a', 't'] cs
    let cs2 ← wsRun1 cs1
    let (ds, _) ← natRun1 cs2
    pure (digitsToNat ds)

/-- The greedy `.*(seat|at)…` of `RE_BUTTON`: rightmost position that
completes the match, never crossing a newline. -/
def scanSeatAtLast : List Char → Option Nat
  | [] => none
  | c :: rest =>
    if c = '\n' then none
    else
      match scanSeatAtLast rest with
      | some n => some n
      | none => trySeatAtTail (c :: rest)

/-- `RE_BUTTON` anchored at one start position. -/
def tryButtonAt (cs : List Char) : Option Nat :=
  match (ciDrop ['b', 'u', 't', 't', 'o', 'n'] cs).bind scanSeatAtLast with
  | some n => some n
  | none => (ciDrop ['d', 'e', 'a', 'l', 'e', 'r'] cs).bind scanSeatAtLast

/-- `RE_BUTTON.search`. -/
def searchButton : List Char → Option Nat
  | [] => none
  | c :: rest =>
    match tryButtonAt (c :: rest) with
    | some n => some n
    | none => searchButton rest

/-- `RE_BUTTON.search` on a line (only the `btn` group is used). -/
def matchButton (s : String) : Option Nat :=
  searchButton s.data

/-- The alternative `raises\s+to` with its capture. -/
def tryRaisesTo (cs : List Char) : Option (List Char × List Char) := do
  let (w1, cs1) ← ciTake ['r', 'a', 'i', 's', 'e', 's'] cs
  let (w, cs2) ← wsTake1 cs1
  let (w2, cs3) ← ciTake ['t', 'o'] cs2
  some (w1 ++ w ++ w2, cs3)

/-- The alternative `all-?in` (when the hyphen is consumed, `in` must
follow it; retrying without the hyphen can never match there). -/
def tryAllIn (cs : List Char) : Option (List Char × List Char) := do
  let (w1, cs1) ← ciTake ['a', 'l', 'l'] cs
  match cs1 with
  | '-' :: cs2 =>
    match ciTake ['i', 'n'] cs2 with
    | some (w2, cs3) => some (w1 ++ '-' :: w2, cs3)
    | none => none
  | _ =>
    match ciTake ['i', 'n'] cs1 with
    | some (w2, cs3) => some (w1 ++ w2, cs3)
    | none => none

/-- The alternative `posts.*`: the greedy tail swallows the rest of the
line (up to a newline), so a posts action always has an empty amount
group. -/
def tryPosts (cs : List Char) : Option (List Char × List Char) := do
  let (w1, cs1) ← ciTake ['p', 'o', 's', 't', 's'] cs
  some (w1 ++ cs1.takeWhile (fun c => c ≠ '\n'), cs1.dropWhile (fun c => c ≠ '\n'))

/-- The verb alternation of `RE_ACTION`, in source order.  Whatever
alternative matches, the rest of the pattern (`\s*(?P<amt>[\d\.]+)?`)
always succeeds, so the first matching alternative is the engine's. -/
def tryVerb (cs : List Char) : Option (List Char × List Char) :=
  match ciTake ['b', 'e', 't', 's'] cs with
  | some r => some r
  | none =>
  match ciTake ['c', 'h', 'e', 'c', 'k', 's'] cs with
  | some r => some r
  | none =>
  match ciTake ['c', 'a', 'l', 'l', 's'] cs with
  | some r => some r
  | none =>
  match ciTake ['f', 'o', 'l', 'd', 's'] cs with
  | some r => some r
  | none =>
  match tryRaisesTo cs with
  | some r => some r
  | none =>
  match tryAllIn cs with
  | some r => some r
  | none =>
  match tryPosts cs with
  | some r => some r
  | none => ciTake ['s', 't', 'r', 'a', 'd', 'd', 'l', 'e'] cs

/-- `\s*(?P<amt>[\d\.]+)?`: skip whitespace, then the optional greedy
amount group (`None` when no digit or dot follows). -/
def amtPart (cs : List Char) : Option (List Char) :=
  let cs1 := cs.dropWhile isPyWs
  let run := cs1.takeWhile isDigitDot
  if run = [] then none else some run

/-- The lazy `^(?P<player>.+?):` of `RE_ACTION`: the first colon (after at
least one character, none of them a newline) whose tail parses as
`\s+<verb>…` ends the player group. -/
def actionScan (acc : List Char) : List Char → Option (List Char × List Char × Option (List Char))
  | [] => none
  | c :: rest =>
    if c = '\n' then none
    else if c = ':' && acc ≠ [] then
      match (do
          let cs1 ← wsRun1 rest
          let (verb, cs2) ← tryVerb cs1
          pure (verb, amtPart cs2) : Option (List Char × Option (List Char))) with
      | some (verb, amt) => some (acc, verb, amt)
      | none => actionScan (acc ++ [c]) rest
    else actionScan (acc ++ [c]) rest

/-- `RE_ACTION.match` on a line: `(player, verb, amt?)`. -/
def matchAction (s : String) : Option (List Char × List Char × Option (List Char)) :=
  actionScan [] s.data

/-- `RE_RETURN.match` on a line: `(amt, player)`.  The `amt` group is
mandatory, so on a match `mr.group(amt)` is a non-empty string and the
truthiness guard in `parse_hand` always takes the negation branch. -/
def matchReturn (s : String) : Option (List Char × List Char) := do
  let cs1 ← ciDrop ['u', 'n', 'c', 'a', 'l', 'l', 'e', 'd'] s.data
  let cs2 ← wsRun1 cs1
  let cs3 ← ciDrop ['b', 'e', 't'] cs2
  let cs4 ← wsRun1 cs3
  let cs5 ← ciDrop ['o', 'f'] cs4
  let cs6 ← wsRun1 cs5
  let (amt, cs7) ← digitRun1 cs6
  let cs8 ← wsRun1 cs7
  let cs9 ← ciDrop ['r', 'e', 't', 'u', 'r', 'n', 'e', 'd'] cs8
  let cs10 ← wsRun1 cs9
  let cs11 ← ciDrop ['t', 'o'] cs10
  let cs12 ← wsRun1 cs11
  let player := cs12.takeWhile (fun c => c ≠ '\n')
  if player = [] then none else some (amt, player)

/-- The rank class `[2-9TJQKA]` under `re.I`. -/
def isRankChar (c : Char) : Bool :=
  ['2', '3', '4', '5', '6', '7', '8', '9', 'T', 'J', 'Q', 'K', 'A'].any (fun r => ciEq c r)

/-- The suit class `[cdhs]` under `re.I`. -/
def isSuitChar (c : Char) : Bool :=
  ['c', 'd', 'h', 's'].any (fun r => ciEq c r)

/-- One card token: a rank character followed by a suit character. -/
def parseCard : List Char → Option ((Char × Char) × List Char)
  | a :: b :: rest => if isRankChar a && isSuitChar b then some ((a, b), rest) else none
  | _ => none

/-- `RE_FLOP.search`: the leading `^` pins the pattern to the start of the
line, so `search` behaves like an anchored match. -/
def matchFlop (s : String) : Option (List Char) := do
  let cs1 ← starRun1 s.data
  let cs2 ← ciDrop ['f', 'l', 'o', 'p'] (cs1.dropWhile isPyWs)
  let cs3 ← starRun1 (cs2.dropWhile isPyWs)
  match cs3.dropWhile isPyWs with
  | '[' :: cs4 => do
    let (c1, cs5) ← parseCard cs4
    let (w1, cs6) ← wsTake1 cs5
    let (c2, cs7) ← parseCard cs6
    let (w2, cs8) ← wsTake1 cs7
    let (c3, cs9) ← parseCard cs8
    match cs9 with
    | ']' :: _ => some ([c1.1, c1.2] ++ w1 ++ [c2.1, c2.2] ++ w2 ++ [c3.1, c3.2])
    | _ => none
  | _ => none

/-- The `.*\[(card)\]` tail of `RE_TURN`/`RE_RIVER`: the greedy `.*`
selects the rightmost bracketed single card, never crossing a newline. -/
def scanLastCard : List Char → Option (List Char)
  | [] => none
  | c :: rest =>
    if c = '\n' then none
    else
      match scanLastCard rest with
      | some cap => some cap
      | none =>
        if c = '[' then
          match parseCard rest with
          | some ((a, b), ']' :: _) => some [a, b]
          | _ => none
        else none

/-- `RE_TURN.search` (anchored by its `^`). -/
def matchTurn (s : String) : Option (List Char) := do
  let cs1 ← starRun1 s.data
  let cs2 ← ciDrop ['t', 'u', 'r', 'n'] (cs1.dropWhile isPyWs)
  let cs3 ← starRun1 (cs2.dropWhile isPyWs)
  scanLastCard cs3

/-- `RE_RIVER.search` (anchored by its `^`). -/
def matchRiver (s : String) : Option (List Char) := do
  let cs1 ← starRun1 s.data
  let cs2 ← ciDrop ['r', 'i', 'v', 'e', 'r'] (cs1.dropWhile isPyWs)
  let cs3 ← starRun1 (cs2.dropWhile isPyWs)
  scanLastCard cs3

/-- `RE_SUMMARY_POT` anchored at one start position:
`Total\s+pot\s+\(?(?P<pot>[\d\.]+)\)?\s*\|\s*Rake\s+(?P<rake>[\d\.]+)`. -/
def tryPotAt (cs : List Char) : Option (List Char × List Char) := do
  let cs1 ← ciDrop ['t', 'o', 't', 'a', 'l'] cs
  let cs2 ← wsRun1 cs1
  let cs3 ← ciDrop ['p', 'o', 't'] cs2
  let cs4 ← wsRun1 cs3
  let cs5 := if cs4.head? = some '(' then cs4.drop 1 else cs4
  let (pot, cs6) ← digitRun1 cs5
  let cs7 := if cs6.head? = some ')' then cs6.drop 1 else cs6
  match cs7.dropWhile isPyWs with
  | '|' :: cs8 => do
    let cs9 ← ciDrop ['r', 'a', 'k', 'e'] (cs8.dropWhile isPyWs)
    let cs10 ← wsRun1 cs9
    let (rake, _) ← digitRun1 cs10
    some (pot, rake)
  | _ => none

/-- `RE_SUMMARY_POT.search`. -/
def searchPot : List Char → Option (List Char × List Char)
  | [] => none
  | c :: rest =>
    match tryPotAt (c :: rest) with
    | some r => some r
    | none => searchPot rest

/-- `RE_SUMMARY_POT.search` on a line: `(pot, rake)`. -/
def matchSummaryPot (s : String) : Option (List Char × List Char) :=
  searchPot s.data

/-- `\s+collected\s+(?P<amt>[\d\.]+)`: the tail after the player group. -/
def tryCollTail (cs : List Char) : Option (List Char) := do
  let cs1 ← wsRun1 cs
  let cs2 ← ciDrop ['c', 'o', 'l', 'l', 'e', 'c', 't', 'e', 'd'] cs1
  let cs3 ← wsRun1 cs2
  let (amt, _) ← digitRun1 cs3
  some amt

/-- The greedy `^(?P<player>.+)` of `RE_COLLECTED` (anchored by its `^`):
longest non-empty newline-free prefix whose tail matches. -/
def collScan (pre : List Char) : List Char → Option (List Char × List Char)
  | [] => none
  | c :: rest =>
    match collScan (pre ++ [c]) rest with
    | some r => some r
    | none =>
      if pre ≠ [] && pre.all (fun x => x ≠ '\n') then
        match tryCollTail (c :: rest) with
        | some amt => some (pre, amt)
        | none => none
      else none

/-- `RE_COLLECTED.search` on a line: `(player, amt)`. -/
def matchCollected (s : String) : Option (List Char × List Char) :=
  collScan [] s.data

/-- `STREET_MARKERS`, in insertion order. -/
def STREET_MARKERS : List (String × String) :=
  [("*** HOLE CARDS ***", "preflop"), ("*** FLOP ***", "flop"),
   ("*** TURN ***", "turn"), ("*** RIVER ***", "river")]

/-- Case-sensitive substring test, Python `in` on strings. -/
def containsSub (pat : List Char) : List Char → Bool
  | [] => pat.isEmpty
  | c :: rest => pat.isPrefixOf (c :: rest) || containsSub pat rest

/-- The street-marker loop of pass 4: the first marker contained in the
line (dict order, `break`) sets the street, otherwise it is unchanged. -/
def streetOf (st : String) (line : String) : String :=
  match STREET_MARKERS.find? (fun m => containsSub m.1.data line.data) with
  | some m => m.2
  | none => st

/-- First line on which a matcher fires (the `for … break` loops). -/
def firstSome {α β : Type} (f : α → Option β) : List α → Option β
  | [] => none
  | x :: xs =>
    match f x with
    | some b => some b
    | none => firstSome f xs

/-- Last line on which a matcher fires (loops that overwrite on a match
and keep the previous value otherwise). -/
def lastSome {α β : Type} (f : α → Option β) (xs : List α) : Option β :=
  xs.foldl (fun acc a => match f a with | some b => some b | none => acc) none

/-- One `{player, amount}` entry of the winners list. -/
structure Winner where
  player : String
  amount : Option ℚ
deriving DecidableEq, Repr

/-- HandRecord: the dict assembled by `parse_hand`.  `winner_json` holds
the winners list itself; its JSON rendering belongs to the out-of-scope
writer (the initial `[]` string corresponds to the empty list). -/
structure Hand where
  hand_id : Option String
  site : String
  game : Option String
  limit_type : Option String
  stakes_sb : Option ℚ
  stakes_bb : Option ℚ
  currency : Option String
  players : Option Nat
  table_name : Option String
  table_size : Option Nat
  btn_seat : Option Nat
  board : String
  pot_total : Option ℚ
  rake : Option ℚ
  winner_json : List Winner
  parse_warnings : String
deriving DecidableEq, Repr

/-- ActionRecord. -/
structure ActionRec where
  hand_id : Option String
  street : String
  player : String
  action : String
  amount : Option ℚ
deriving DecidableEq, Repr

/-- `'|'.join` of the non-empty board parts. -/
def joinBar : List (List Char) → List Char
  | [] => []
  | [p] => p
  | p :: ps => p ++ '|' :: joinBar ps

/-- The action records one line contributes in pass 4: an `RE_ACTION`
match, then an `RE_RETURN` match.  For the latter the source computes
`-to_float_safe(amt)`; when `to_float_safe` returns `None` the unary minus
raises a `TypeError`, which the surrounding `try` of `parse_hand` turns
into a whole-hand failure. -/
def lineActs (hid : Option String) (st : String) (line : String) :
    Except String (List ActionRec) := do
  let regular : List ActionRec :=
    match matchAction line with
    | some (p, verb, amt) =>
      [{ hand_id := hid, street := st, player := String.mk (pyStrip p),
         action := String.mk (pyStrip (lowerStr verb)),
         amount := to_float_safe (amt.map String.mk) }]
    | none => []
  match matchReturn line with
  | some (amt, p) =>
    match to_float_safe (some (String.mk amt)) with
    | some v =>
      pure (regular ++ [{ hand_id := hid, street := st, player := String.mk (pyStrip p),
                          action := "return_uncalled", amount := some (-v) }])
    | none => Except.error "TypeError: bad operand type for unary minus: NoneType"
  | none => pure regular

/-- One iteration of the pass-4 loop: update the street from the markers,
then append this line's action records. -/
def pass4Step (hid : Option String) (acc : String × List ActionRec) (line : String) :
    Except String (String × List ActionRec) := do
  let st := streetOf acc.1 line
  let acts ← lineActs hid st line
  pure (st, acc.2 ++ acts)

/-- The `try` body of `parse_hand`: passes 1–7 in source order.  Only two
statements can raise: the unary minus of pass 4 and the explicit
`ValueError` of pass 7. -/
def parseHandBody (lines : List String) : Except String (Hand × List ActionRec) := do
  let hid := firstSome matchHandHeader lines
  let lim := firstSome matchLimit lines
  let seats := lines.filterMap matchSeat
  let btn := firstSome matchButton lines
  let r4 ← lines.foldlM (pass4Step hid) ("preflop", [])
  let flop := lastSome matchFlop lines
  let turn := lastSome matchTurn lines
  let river := lastSome matchRiver lines
  let potRake := lastSome matchSummaryPot lines
  let winners := lines.filterMap (fun l => (matchCollected l).map
      (fun r => ({ player := String.mk (pyStrip r.1),
                   amount := to_float_safe (some (String.mk r.2)) } : Winner)))
  if (hid.getD "") = "" then
    Except.error "hand_id could not be determined"
  else
    pure
      ({ hand_id := hid
         site := "pokerok"
         game := lim.map (fun g => String.mk ((lowerStr g.game).filter (fun c => c ≠ apos)))
         limit_type := lim.map (fun g => String.mk (g.limit.map Char.toUpper))
         stakes_sb := lim.bind (fun g => to_float_safe (some (String.mk g.sb)))
         stakes_bb := lim.bind (fun g => to_float_safe (some (String.mk g.bb)))
         currency := lim.map (fun g => normalize_currency_symbol (g.cur.map String.mk))
         players := if seats = [] then none else some seats.length
         table_name := none
         table_size := if seats = [] then none else some seats.length
         btn_seat := btn
         board := String.mk (joinBar ([flop, turn, river].filterMap id))
         pot_total := potRake.bind (fun pr => to_float_safe (some (String.mk pr.1)))
         rake := potRake.bind (fun pr => to_float_safe (some (String.mk pr.2)))
         winner_json := winners
         parse_warnings := "" }, r4.2)

/-- `parse_hand`: the `except` clause turns any raised error into
`(None, [])` (the diagnostic lands in a discarded dict). -/
def parse_hand (lines : List String) : Option Hand × List ActionRec :=
  match parseHandBody lines with
  | Except.ok (h, acts) => (some h, acts)
  | Except.error _ => (none, [])

/-- The filter configuration assembled by `main`. -/
structure Filters where
  game : Option (List String)
  min_players : Option Int
  max_players : Option Int
deriving DecidableEq, Repr

/-- `filters.get(game) and hand[game] not in filters[game]`: the guard is
Python truthiness (absent or empty list never filters); a hand whose game
is `None` is never a member of a list of strings, so it is skipped. -/
def gameSkip (f : Filters) (h : Hand) : Bool :=
  match f.game with
  | none => false
  | some gl =>
    if gl = [] then false
    else
      match h.game with
      | none => true
      | some g => !(gl.contains g)

/-- `filters.get(min_players) and hand.get(players, 0) < filters[min_players]`:
the truthiness guard makes 0 behave like an unset bound; the `players` key
is always present in the hand dict, so `dict.get` returns its value even
when that value is `None`, and comparing `None` with an int raises. -/
def minSkip (f : Filters) (h : Hand) : Except String Bool :=
  match f.min_players with
  | none => pure false
  | some n =>
    if n = 0 then pure false
    else
      match h.players with
      | none => Except.error "TypeError: unorderable types NoneType and int"
      | some p => pure (decide ((p : Int) < n))

/-- The symmetric `max_players` guard. -/
def maxSkip (f : Filters) (h : Hand) : Except String Bool :=
  match f.max_players with
  | none => pure false
  | some n =>
    if n = 0 then pure false
    else
      match h.players with
      | none => Except.error "TypeError: unorderable types NoneType and int"
      | some p => pure (decide ((p : Int) > n))

/-- The per-future body of the collection loop of `process_input`: skip a
failed hand, apply the three filters in order, then append the hand and
extend the actions. -/
def filterStep (f : Filters) (acc : List Hand × List ActionRec) (block : List String) :
    Except String (List Hand × List ActionRec) :=
  match parse_hand block with
  | (none, _) => pure acc
  | (some h, acts) =>
    if gameSkip f h then pure acc
    else do
      let ms ← minSkip f h
      if ms then pure acc
      else do
        let xs ← maxSkip f h
        if xs then pure acc
        else pure (acc.1 ++ [h], acc.2 ++ acts)

/-- `process_input` over already-read files (file discovery, encoding and
the thread pool are out-of-scope collaborators; futures are created and
collected in submission order, so the aggregate equals this sequential
fold over the blocks of all files). -/
def process_input (files : List (List String)) (f : Filters) :
    Except String (List Hand × List ActionRec) :=
  (files.flatMap split_into_hands).foldlM (filterStep f) ([], [])

/-! Definitions used only to state properties. -/

/-- Separator characters of a rendered board string: whitespace (between
flop cards) and the bar the parts are joined with. -/
def isSepChar (c : Char) : Bool :=
  isPyWs c || c = '|'

/-- Token counter: number of maximal runs of non-separator characters;
the flag records whether a token is currently open. -/
def countAux : Bool → List Char → Nat
  | _, [] => 0
  | inTok, c :: cs =>
    if isSepChar c then countAux false cs
    else (if inTok then 0 else 1) + countAux true cs

/-- Number of card tokens in a rendered board string. -/
def countCards (s : String) : Nat :=
  countAux false s.data

/-- Pass 4 reorganised per line: the list of action records each line
contributes, threading the street state exactly as `pass4Step` does.
Stating that the accumulated action list is the concatenation of these
per-line contributions is the order-preservation property. -/
def lineContribs (hid : Option String) (st : String) :
    List String → Except String (List (List ActionRec))
  | [] => pure []
  | l :: ls => do
    let st2 := streetOf st l
    let as ← lineActs hid st2 l
    let rest ← lineContribs hid st2 ls
    pure (as :: rest)

/-- Whether a block begins with a line the segmenter header pattern
accepts. -/
def startsHeader (b : List String) : Bool :=
  match b.head? with
  | some l => isHeaderLine l
  | none => false

/-- The scenario block of spec section 8 (also the source self-test hand):
header, stakes line, two seats, blinds, raise, call, flop, bet, fold,
uncalled-bet return, collection, summary. -/
def c5Lines : List String :=
  ["Hand #123456789",
   "Table: NL Hold" ++ String.mk [apos] ++ "em ($0.01/$0.02 USD)",
   "Seat 1: Hero (2.00)",
   "Seat 2: Villain (2.00)",
   "Hero posts small blind 0.01",
   "Villain posts big blind 0.02",
   "*** HOLE CARDS ***",
   "Hero: raises to 0.06",
   "Villain: calls 0.04",
   "*** FLOP *** [Ah Kd 7s]",
   "Hero: bets 0.10",
   "Villain: folds",
   "Uncalled bet of 0.10 returned to Hero",
   "Hero collected 0.12 from pot",
   "*** SUMMARY ***",
   "Total pot 0.12 | Rake 0.00"]

/-- A block whose stakes line writes the blinds with a comma decimal
separator. -/
def c8CommaLines : List String :=
  ["Hand #81",
   "Table: NL Hold" ++ String.mk [apos] ++ "em (0,01/0,02 USD)"]

/-- The same block with dot decimal separators. -/
def c8DotLines : List String :=
  ["Hand #82",
   "Table: NL Hold" ++ String.mk [apos] ++ "em (0.01/0.02 USD)"]

/-! Helper lemmas and the claim theorems. -/

theorem except_pure_ok {α : Type} (a : α) : (pure a : Except String α) = Except.ok a := rfl

theorem except_bind_ok {α β : Type} (a : α) (f : α → Except String β) :
    (Except.ok a >>= f : Except String β) = f a := rfl

theorem except_bind_error {α β : Type} (e : String) (f : α → Except String β) :
    ((Except.error e : Except String α) >>= f : Except String β) = Except.error e := rfl

theorem firstSome_eq_none {α β : Type} (f : α → Option β) :
    ∀ (xs : List α), (∀ x ∈ xs, f x = none) → firstSome f xs = none
  | [], _ => rfl
  | x :: xs, h => by
    unfold firstSome
    rw [h x (List.mem_cons_self x xs)]
    exact firstSome_eq_none f xs (fun y hy => h y (List.mem_cons_of_mem x hy))

theorem lineActs_hand_id (hid : Option String) (st line : String) (acts : List ActionRec)
    (h : lineActs hid st line = Except.ok acts) : ∀ a ∈ acts, a.hand_id = hid := by
  unfold lineActs at h
  cases hma : matchAction line with
  | none =>
    simp only [hma] at h
    cases hmr : matchReturn line with
    | none =>
      simp only [hmr] at h
      simp only [except_pure_ok, Except.ok.injEq] at h
      subst h
      intro a ha
      simp at ha
    | some r =>
      simp only [hmr] at h
      obtain ⟨amt, p⟩ := r
      dsimp only at h
      cases htf : to_float_safe (some (String.mk amt)) with
      | none => simp only [htf] at h; exact Except.noConfusion h
      | some v =>
        simp only [htf] at h
        simp only [except_pure_ok, Except.ok.injEq] at h
        subst h
        intro a ha
        simp only [List.nil_append, List.mem_singleton] at ha
        subst ha
        rfl
  | some r =>
    simp only [hma] at h
    obtain ⟨p, verb, amt⟩ := r
    cases hmr : matchReturn line with
    | none =>
      simp only [hmr] at h
      simp only [except_pure_ok, Except.ok.injEq] at h
      subst h
      intro a ha
      simp only [List.mem_singleton] at ha
      subst ha
      rfl
    | some r2 =>
      simp only [hmr] at h
      obtain ⟨amt2, p2⟩ := r2
      dsimp only at h
      cases htf : to_float_safe (some (String.mk amt2)) with
      | none => simp only [htf] at h; exact Except.noConfusion h
      | some v =>
        simp only [htf] at h
        simp only [except_pure_ok, Except.ok.injEq] at h
        subst h
        intro a ha
        simp only [List.mem_append, List.mem_singleton] at ha
        rcases ha with ha | ha
        · subst ha; rfl
        · subst ha; rfl
theorem pass4Step_eq (hid : Option String) (st : String) (acc : List ActionRec) (l : String) :
    pass4Step hid (st, acc) l =
      lineActs hid (streetOf st l) l >>= fun as => pure (streetOf st l, acc ++ as) := rfl

theorem foldlM_pass4_hand_id (hid : Option String) :
    ∀ (ls : List String) (st : String) (acc : List ActionRec) (r : String × List ActionRec),
      (∀ a ∈ acc, a.hand_id = hid) →
      ls.foldlM (pass4Step hid) (st, acc) = Except.ok r →
      ∀ a ∈ r.2, a.hand_id = hid := by
  intro ls
  induction ls with
  | nil =>
    intro st acc r hacc h
    simp only [List.foldlM_nil, except_pure_ok, Except.ok.injEq] at h
    subst h
    exact hacc
  | cons l ls ih =>
    intro st acc r hacc h
    simp only [List.foldlM_cons, pass4Step_eq] at h
    cases hla : lineActs hid (streetOf st l) l with
    | error e =>
      simp only [hla, except_bind_error] at h
      exact Except.noConfusion h
    | ok as =>
      simp only [hla, except_bind_ok, except_pure_ok] at h
      refine ih (streetOf st l) (acc ++ as) r ?_ h
      intro a ha
      rcases List.mem_append.mp ha with ha2 | ha2
      · exact hacc a ha2
      · exact lineActs_hand_id hid (streetOf st l) l as hla a ha2

theorem parseHandBody_ok_inv (lines : List String) (h : Hand) (acts : List ActionRec)
    (hb : parseHandBody lines = Except.ok (h, acts)) :
    ∃ r4 : String × List ActionRec,
      lines.foldlM (pass4Step (firstSome matchHandHeader lines)) ("preflop", []) =
        Except.ok r4 ∧
      acts = r4.2 ∧ h.hand_id = firstSome matchHandHeader lines ∧
      h.board = String.mk (joinBar ([lastSome matchFlop lines, lastSome matchTurn lines,
          lastSome matchRiver lines].filterMap id)) := by
  simp only [parseHandBody] at hb
  cases h4 : lines.foldlM (pass4Step (firstSome matchHandHeader lines)) ("preflop", []) with
  | error e =>
    rw [h4] at hb
    simp only [except_bind_error] at hb
    exact Except.noConfusion hb
  | ok r4 =>
    rw [h4] at hb
    simp only [except_bind_ok] at hb
    refine ⟨r4, rfl, ?_⟩
    split at hb
    · exact Except.noConfusion hb
    · simp only [except_pure_ok, Except.ok.injEq, Prod.mk.injEq] at hb
      obtain ⟨hh, hacts⟩ := hb
      subst hh
      exact ⟨hacts.symm, rfl, rfl⟩
/-- **C1**: failure of `parse_hand` is all-or-nothing.  If the hand is not
emitted the action list is empty; a block in which no line matches the
hand-header pattern yields exactly `(none, [])`; and on success every
emitted ActionRecord carries the emitted hand's `hand_id`, so no action
ever references a hand absent from the output. -/
theorem c1_all_or_nothing (lines : List String) :
    ((parse_hand lines).1 = none → (parse_hand lines).2 = []) ∧
    ((∀ l ∈ lines, matchHandHeader l = none) → parse_hand lines = (none, [])) ∧
    (∀ h, (parse_hand lines).1 = some h →
      ∀ a ∈ (parse_hand lines).2, a.hand_id = h.hand_id) := by
  refine ⟨?_, ?_, ?_⟩
  · intro h1
    unfold parse_hand at h1 ⊢
    cases hb : parseHandBody lines with
    | ok p =>
      obtain ⟨h0, acts⟩ := p
      rw [hb] at h1
      exact absurd h1 (by simp)
    | error e => rfl
  · intro hno
    have hfirst : firstSome matchHandHeader lines = none := firstSome_eq_none _ _ hno
    unfold parse_hand
    cases hb : parseHandBody lines with
    | error e => rfl
    | ok p =>
      exfalso
      simp only [parseHandBody, hfirst] at hb
      cases h4 : lines.foldlM (pass4Step none) ("preflop", []) with
      | error e =>
        rw [h4] at hb
        simp only [except_bind_error] at hb
        exact Except.noConfusion hb
      | ok r4 =>
        rw [h4] at hb
        simp only [except_bind_ok, Option.getD_none, if_pos] at hb
        exact Except.noConfusion hb
  · intro h hsome a ha
    unfold parse_hand at hsome ha
    cases hb : parseHandBody lines with
    | error e =>
      rw [hb] at hsome
      exact absurd hsome (by simp)
    | ok p =>
      obtain ⟨h0, acts0⟩ := p
      rw [hb] at hsome ha
      simp only [Option.some.injEq] at hsome
      subst hsome
      obtain ⟨r4, h4, hacts, hhid, _⟩ := parseHandBody_ok_inv lines h0 acts0 hb
      rw [hhid]
      refine foldlM_pass4_hand_id _ lines "preflop" [] r4 (by simp) h4 a ?_
      rw [← hacts]
      exact ha

/-- Witness for C1 at a concrete headerless block. -/
theorem c1_all_or_nothing_witness :
    parse_hand ["junk line"] = (none, []) :=
  (c1_all_or_nothing ["junk line"]).2.1 (by decide)
theorem foldlM_pass4_contribs (hid : Option String) :
    ∀ (ls : List String) (st : String) (acc : List ActionRec) (r : String × List ActionRec),
      ls.foldlM (pass4Step hid) (st, acc) = Except.ok r →
      ∃ cs, lineContribs hid st ls = Except.ok cs ∧ cs.length = ls.length ∧
        r.2 = acc ++ cs.flatten := by
  intro ls
  induction ls with
  | nil =>
    intro st acc r h
    simp only [List.foldlM_nil, except_pure_ok, Except.ok.injEq] at h
    subst h
    exact ⟨[], rfl, rfl, by simp⟩
  | cons l ls ih =>
    intro st acc r h
    simp only [List.foldlM_cons, pass4Step_eq] at h
    cases hla : lineActs hid (streetOf st l) l with
    | error e =>
      simp only [hla, except_bind_error] at h
      exact Except.noConfusion h
    | ok as =>
      simp only [hla, except_bind_ok, except_pure_ok] at h
      obtain ⟨cs, hcs, hlen, hflat⟩ := ih (streetOf st l) (acc ++ as) r h
      refine ⟨as :: cs, ?_, ?_, ?_⟩
      · simp only [lineContribs, hla, hcs, except_bind_ok, except_pure_ok]
      · simp [hlen]
      · simp [hflat, List.append_assoc]

/-- **C9**: order preservation.  For every successfully parsed hand the
returned action list is the in-order concatenation of the per-line
contributions `lineContribs` (one sublist per source line, streets
threaded exactly as the single pass does), so ActionRecords appear in the
same relative order as the lines that produced them. -/
theorem c9_actions_in_line_order (lines : List String) (h : Hand)
    (hs : (parse_hand lines).1 = some h) :
    ∃ cs, lineContribs h.hand_id "preflop" lines = Except.ok cs ∧
      cs.length = lines.length ∧ (parse_hand lines).2 = cs.flatten := by
  unfold parse_hand at hs ⊢
  cases hb : parseHandBody lines with
  | error e =>
    rw [hb] at hs
    exact absurd hs (by simp)
  | ok p =>
    obtain ⟨h0, acts0⟩ := p
    rw [hb] at hs
    simp only [Option.some.injEq] at hs
    subst hs
    obtain ⟨r4, h4, hacts, hhid, _⟩ := parseHandBody_ok_inv lines h0 acts0 hb
    obtain ⟨cs, hcs, hlen, hflat⟩ := foldlM_pass4_contribs _ lines "preflop" [] r4 h4
    rw [hhid]
    refine ⟨cs, hcs, hlen, ?_⟩
    rw [hacts, hflat]
    simp

/-- Witness for C9 at a concrete two-line block. -/
theorem c9_actions_in_line_order_witness :
    ∃ cs, lineContribs (some "9") "preflop" ["Hand #9", "A: bets 5"] = Except.ok cs ∧
      cs.length = 2 ∧ (parse_hand ["Hand #9", "A: bets 5"]).2 = cs.flatten :=
  c9_actions_in_line_order ["Hand #9", "A: bets 5"]
    { hand_id := some "9", site := "pokerok", game := none, limit_type := none,
      stakes_sb := none, stakes_bb := none, currency := none, players := none,
      table_name := none, table_size := none, btn_seat := none, board := "",
      pot_total := none, rake := none, winner_json := [], parse_warnings := "" }
    (by decide)
theorem lastSome_eq_some {α β : Type} (f : α → Option β) :
    ∀ (xs : List α) (acc : Option β) (b : β),
      xs.foldl (fun acc a => match f a with | some v => some v | none => acc) acc = some b →
      (∃ x ∈ xs, f x = some b) ∨ acc = some b := by
  intro xs
  induction xs with
  | nil => intro acc b h; exact Or.inr h
  | cons x xs ih =>
    intro acc b h
    simp only [List.foldl_cons] at h
    rcases ih _ b h with h2 | h2
    · obtain ⟨y, hy, hfy⟩ := h2
      exact Or.inl ⟨y, List.mem_cons_of_mem x hy, hfy⟩
    · cases hfx : f x with
      | some v =>
        rw [hfx] at h2
        exact Or.inl ⟨x, List.mem_cons_self x xs, hfx.trans h2⟩
      | none =>
        rw [hfx] at h2
        exact Or.inr h2

theorem lastSome_some {α β : Type} (f : α → Option β) (xs : List α) (b : β)
    (h : lastSome f xs = some b) : ∃ x ∈ xs, f x = some b := by
  rcases lastSome_eq_some f xs none b h with h2 | h2
  · exact h2
  · exact Option.noConfusion h2

theorem isPyWs_not_rank (c : Char) (h : isPyWs c = true) : isRankChar c = false := by
  simp only [isPyWs, Bool.or_eq_true, decide_eq_true_eq] at h
  rcases h with ((((h | h) | h) | h) | h) | h <;> subst h <;> decide

theorem isPyWs_not_suit (c : Char) (h : isPyWs c = true) : isSuitChar c = false := by
  simp only [isPyWs, Bool.or_eq_true, decide_eq_true_eq] at h
  rcases h with ((((h | h) | h) | h) | h) | h <;> subst h <;> decide

theorem rank_not_sep (c : Char) (h : isRankChar c = true) : isSepChar c = false := by
  unfold isSepChar
  cases hws : isPyWs c
  · cases hb : (decide (c = '|') : Bool)
    · rfl
    · have hc : c = '|' := of_decide_eq_true hb
      subst hc
      exact absurd h (by decide)
  · rw [isPyWs_not_rank c hws] at h
    exact Bool.noConfusion h

theorem suit_not_sep (c : Char) (h : isSuitChar c = true) : isSepChar c = false := by
  unfold isSepChar
  cases hws : isPyWs c
  · cases hb : (decide (c = '|') : Bool)
    · rfl
    · have hc : c = '|' := of_decide_eq_true hb
      subst hc
      exact absurd h (by decide)
  · rw [isPyWs_not_suit c hws] at h
    exact Bool.noConfusion h

theorem countAux_append_bar (ys : List Char) :
    ∀ (xs : List Char) (b : Bool),
      countAux b (xs ++ '|' :: ys) = countAux b xs + countAux false ys := by
  intro xs
  induction xs with
  | nil =>
    intro b
    simp [countAux, isSepChar]
  | cons c xs ih =>
    intro b
    cases hc : isSepChar c
    · simp only [List.cons_append, countAux, hc, if_false, List.append_eq, ih,
        Bool.false_eq_true]
      omega
    · simp only [List.cons_append, countAux, hc, if_true, List.append_eq, ih]

theorem countAux_allsep (w : List Char) (hw : ∀ c ∈ w, isSepChar c = true) (rest : List Char) :
    countAux false (w ++ rest) = countAux false rest := by
  induction w with
  | nil => rfl
  | cons c w ih =>
    simp only [List.cons_append, countAux, hw c (List.mem_cons_self c w), if_true]
    exact ih (fun x hx => hw x (List.mem_cons_of_mem c hx))

theorem countAux_openws (c : Char) (w : List Char) (hc : isSepChar c = true)
    (hw : ∀ x ∈ w, isSepChar x = true) (b : Bool) (rest : List Char) :
    countAux b (c :: (w ++ rest)) = countAux false rest := by
  simp only [countAux, hc, if_true]
  exact countAux_allsep w hw rest

theorem countAux_tok2 (a b : Char) (ha : isSepChar a = false) (hb2 : isSepChar b = false)
    (rest : List Char) :
    countAux false (a :: b :: rest) = 1 + countAux true rest := by
  simp [countAux, ha, hb2]

theorem countAux_tok2_end (a b : Char) (ha : isSepChar a = false) (hb2 : isSepChar b = false) :
    countAux false [a, b] = 1 := by
  simp [countAux, ha, hb2]
theorem parseCard_inv (cs : List Char) (c : Char × Char) (rest : List Char)
    (h : parseCard cs = some (c, rest)) :
    isRankChar c.1 = true ∧ isSuitChar c.2 = true := by
  cases cs with
  | nil => exact Option.noConfusion h
  | cons a cs2 =>
    cases cs2 with
    | nil => exact Option.noConfusion h
    | cons b rest2 =>
      simp only [parseCard] at h
      by_cases hab : (isRankChar a && isSuitChar b) = true
      · rw [if_pos hab] at h
        simp only [Option.some.injEq, Prod.mk.injEq] at h
        obtain ⟨hc, _⟩ := h
        subst hc
        exact ⟨(Bool.and_eq_true .. |>.mp hab).1, (Bool.and_eq_true .. |>.mp hab).2⟩
      · rw [if_neg hab] at h
        exact Option.noConfusion h

theorem wsTake1_inv (cs w rest : List Char) (h : wsTake1 cs = some (w, rest)) :
    ∃ c w2, w = c :: w2 ∧ isSepChar c = true ∧ (∀ x ∈ w2, isSepChar x = true) := by
  cases cs with
  | nil => exact Option.noConfusion h
  | cons c cs2 =>
    simp only [wsTake1] at h
    by_cases hc : isPyWs c = true
    · rw [if_pos hc] at h
      simp only [Option.some.injEq, Prod.mk.injEq] at h
      obtain ⟨hw, _⟩ := h
      refine ⟨c, cs2.takeWhile isPyWs, ?_, by simp [isSepChar, hc], ?_⟩
      · rw [← hw, List.takeWhile_cons, if_pos hc]
      · intro x hx
        have := List.mem_takeWhile_imp hx
        simp [isSepChar, this]
    · rw [if_neg hc] at h
      exact Option.noConfusion h

theorem countAux_card_ws (a b : Char) (w rest : List Char)
    (ha : isSepChar a = false) (hb : isSepChar b = false)
    (hw : ∃ c w2, w = c :: w2 ∧ isSepChar c = true ∧ (∀ x ∈ w2, isSepChar x = true)) :
    countAux false (a :: b :: (w ++ rest)) = 1 + countAux false rest := by
  obtain ⟨c, w2, hweq, hc, hw2⟩ := hw
  subst hweq
  have hws : countAux true (c :: (w2 ++ rest)) = countAux false rest := by
    simp only [countAux, hc, if_true]
    exact countAux_allsep w2 hw2 rest
  rw [countAux_tok2 a b ha hb, List.cons_append, hws]

theorem matchFlop_count (s : String) (cap : List Char) (h : matchFlop s = some cap) :
    countAux false cap = 3 := by
  unfold matchFlop at h
  cases h1 : starRun1 s.data with
  | none => rw [h1] at h; exact Option.noConfusion h
  | some cs1 =>
  rw [h1] at h
  simp only [Option.bind_eq_bind, Option.some_bind] at h
  cases h2 : ciDrop ['f', 'l', 'o', 'p'] (cs1.dropWhile isPyWs) with
  | none => rw [h2] at h; exact Option.noConfusion h
  | some cs2 =>
  rw [h2] at h
  simp only [Option.some_bind] at h
  cases h3 : starRun1 (cs2.dropWhile isPyWs) with
  | none => rw [h3] at h; exact Option.noConfusion h
  | some cs3 =>
  rw [h3] at h
  simp only [Option.some_bind] at h
  cases h4 : cs3.dropWhile isPyWs with
  | nil => rw [h4] at h; exact Option.noConfusion h
  | cons c0 cs4 =>
  rw [h4] at h
  by_cases hc0 : c0 = '['
  case neg =>
    cases hcc : c0 <;> simp_all
  case pos =>
  subst hc0
  simp only [] at h
  cases h5 : parseCard cs4 with
  | none => simp [h5] at h
  | some r1 =>
  obtain ⟨c1, cs5⟩ := r1
  simp only [h5, Option.some_bind] at h
  cases h6 : wsTake1 cs5 with
  | none => simp [h6] at h
  | some r2 =>
  obtain ⟨w1, cs6⟩ := r2
  simp only [h6, Option.some_bind] at h
  cases h7 : parseCard cs6 with
  | none => simp [h7] at h
  | some r3 =>
  obtain ⟨c2, cs7⟩ := r3
  simp only [h7, Option.some_bind] at h
  cases h8 : wsTake1 cs7 with
  | none => simp [h8] at h
  | some r4 =>
  obtain ⟨w2, cs8⟩ := r4
  simp only [h8, Option.some_bind] at h
  cases h9 : parseCard cs8 with
  | none => simp [h9] at h
  | some r5 =>
  obtain ⟨c3, cs9⟩ := r5
  simp only [h9, Option.some_bind] at h
  cases h10 : cs9 with
  | nil => simp [h10] at h
  | cons c9 cs10 =>
  rw [h10] at h
  by_cases hc9 : c9 = ']'
  case neg => cases hcc : c9 <;> simp_all
  case pos =>
  subst hc9
  simp only [Option.some.injEq] at h
  obtain ⟨hr1, hs1⟩ := parseCard_inv _ _ _ h5
  obtain ⟨hr2, hs2⟩ := parseCard_inv _ _ _ h7
  obtain ⟨hr3, hs3⟩ := parseCard_inv _ _ _ h9
  have hw1 := wsTake1_inv _ _ _ h6
  have hw2 := wsTake1_inv _ _ _ h8
  subst h
  rw [show ([c1.1, c1.2] ++ w1 ++ [c2.1, c2.2] ++ w2 ++ [c3.1, c3.2] : List Char) =
    c1.1 :: c1.2 :: (w1 ++ (c2.1 :: c2.2 :: (w2 ++ [c3.1, c3.2]))) from by simp]
  rw [countAux_card_ws _ _ _ _ (rank_not_sep _ hr1) (suit_not_sep _ hs1) hw1]
  rw [countAux_card_ws _ _ _ _ (rank_not_sep _ hr2) (suit_not_sep _ hs2) hw2]
  rw [countAux_tok2_end _ _ (rank_not_sep _ hr3) (suit_not_sep _ hs3)]
theorem scanLastCard_inv : ∀ (cs cap : List Char), scanLastCard cs = some cap →
    ∃ a b, cap = [a, b] ∧ isRankChar a = true ∧ isSuitChar b = true := by
  intro cs
  induction cs with
  | nil => intro cap h; exact Option.noConfusion h
  | cons c rest ih =>
    intro cap h
    simp only [scanLastCard] at h
    by_cases hnl : c = '\n'
    · simp [hnl] at h
    · rw [if_neg (by simpa using hnl)] at h
      cases hrec : scanLastCard rest with
      | some cap2 =>
        rw [hrec] at h
        simp only [Option.some.injEq] at h
        subst h
        exact ih cap2 hrec
      | none =>
        rw [hrec] at h
        by_cases hbr : c = '['
        · rw [if_pos (by simpa using hbr)] at h
          cases hpc : parseCard rest with
          | none => rw [hpc] at h; exact Option.noConfusion h
          | some r =>
            obtain ⟨⟨a, b⟩, rest2⟩ := r
            rw [hpc] at h
            cases rest2 with
            | nil => simp at h
            | cons c2 rest3 =>
              by_cases hc2 : c2 = ']'
              · subst hc2
                simp only [Option.some.injEq] at h
                obtain ⟨hr2, hs2⟩ := parseCard_inv _ _ _ hpc
                exact ⟨a, b, h.symm, hr2, hs2⟩
              · cases hcc : c2 <;> simp_all
        · rw [if_neg (by simpa using hbr)] at h
          exact Option.noConfusion h

theorem matchTurn_count (s : String) (cap : List Char) (h : matchTurn s = some cap) :
    countAux false cap = 1 := by
  unfold matchTurn at h
  cases h1 : starRun1 s.data with
  | none => rw [h1] at h; exact Option.noConfusion h
  | some cs1 =>
  rw [h1] at h
  simp only [Option.bind_eq_bind, Option.some_bind] at h
  cases h2 : ciDrop ['t', 'u', 'r', 'n'] (cs1.dropWhile isPyWs) with
  | none => rw [h2] at h; exact Option.noConfusion h
  | some cs2 =>
  rw [h2] at h
  simp only [Option.some_bind] at h
  cases h3 : starRun1 (cs2.dropWhile isPyWs) with
  | none => rw [h3] at h; exact Option.noConfusion h
  | some cs3 =>
  rw [h3] at h
  simp only [Option.some_bind] at h
  obtain ⟨a, b, hcap, hr2, hs2⟩ := scanLastCard_inv _ _ h
  subst hcap
  exact countAux_tok2_end a b (rank_not_sep a hr2) (suit_not_sep b hs2)

theorem matchRiver_count (s : String) (cap : List Char) (h : matchRiver s = some cap) :
    countAux false cap = 1 := by
  unfold matchRiver at h
  cases h1 : starRun1 s.data with
  | none => rw [h1] at h; exact Option.noConfusion h
  | some cs1 =>
  rw [h1] at h
  simp only [Option.bind_eq_bind, Option.some_bind] at h
  cases h2 : ciDrop ['r', 'i', 'v', 'e', 'r'] (cs1.dropWhile isPyWs) with
  | none => rw [h2] at h; exact Option.noConfusion h
  | some cs2 =>
  rw [h2] at h
  simp only [Option.some_bind] at h
  cases h3 : starRun1 (cs2.dropWhile isPyWs) with
  | none => rw [h3] at h; exact Option.noConfusion h
  | some cs3 =>
  rw [h3] at h
  simp only [Option.some_bind] at h
  obtain ⟨a, b, hcap, hr2, hs2⟩ := scanLastCard_inv _ _ h
  subst hcap
  exact countAux_tok2_end a b (rank_not_sep a hr2) (suit_not_sep b hs2)

/-- **C4** (amended): for every successfully parsed hand, the board holds
0, 3, 4 or 5 cards **provided** the block yields a turn or river match
only when it also yields a flop match; a degenerate block with a turn or
river line and no flop line can yield a 1- or 2-card board (see the
counterexample), because the board is assembled as the join of whichever
parts matched, with no cross-street validation. -/
theorem c4_board_cardinality_amended (lines : List String) (h : Hand)
    (hs : (parse_hand lines).1 = some h)
    (ht : lastSome matchTurn lines ≠ none → lastSome matchFlop lines ≠ none)
    (hr : lastSome matchRiver lines ≠ none → lastSome matchFlop lines ≠ none) :
    countCards h.board = 0 ∨ countCards h.board = 3 ∨
      countCards h.board = 4 ∨ countCards h.board = 5 := by
  unfold parse_hand at hs
  cases hb : parseHandBody lines with
  | error e => rw [hb] at hs; exact absurd hs (by simp)
  | ok p =>
    obtain ⟨h0, acts0⟩ := p
    rw [hb] at hs
    simp only [Option.some.injEq] at hs
    subst hs
    obtain ⟨r4, _, _, _, hboard⟩ := parseHandBody_ok_inv lines h0 acts0 hb
    rw [hboard]
    have hcount : ∀ l : List Char, countCards (String.mk l) = countAux false l := fun l => rfl
    rw [hcount]
    cases hf : lastSome matchFlop lines with
    | none =>
      cases htv : lastSome matchTurn lines with
      | some cap => exact absurd hf (ht (by rw [htv]; exact fun hx => Option.noConfusion hx))
      | none =>
        cases hrv : lastSome matchRiver lines with
        | some cap => exact absurd hf (hr (by rw [hrv]; exact fun hx => Option.noConfusion hx))
        | none =>
          left
          rfl
    | some f =>
      obtain ⟨lf, _, hlf⟩ := lastSome_some _ _ _ hf
      have hfc : countAux false f = 3 := matchFlop_count _ _ hlf
      cases htv : lastSome matchTurn lines with
      | none =>
        cases hrv : lastSome matchRiver lines with
        | none =>
          right; left
          simpa [joinBar, List.filterMap] using hfc
        | some rv =>
          obtain ⟨lr, _, hlr⟩ := lastSome_some _ _ _ hrv
          have hrc : countAux false rv = 1 := matchRiver_count _ _ hlr
          right; right; left
          have : joinBar ([some f, none, some rv].filterMap id) = f ++ '|' :: rv := by
            simp [joinBar, List.filterMap]
          rw [this, countAux_append_bar, hfc, hrc]
      | some tv =>
        obtain ⟨lt, _, hlt⟩ := lastSome_some _ _ _ htv
        have htc : countAux false tv = 1 := matchTurn_count _ _ hlt
        cases hrv : lastSome matchRiver lines with
        | none =>
          right; right; left
          have : joinBar ([some f, some tv, none].filterMap id) = f ++ '|' :: tv := by
            simp [joinBar, List.filterMap]
          rw [this, countAux_append_bar, hfc, htc]
        | some rv =>
          obtain ⟨lr, _, hlr⟩ := lastSome_some _ _ _ hrv
          have hrc : countAux false rv = 1 := matchRiver_count _ _ hlr
          right; right; right
          have : joinBar ([some f, some tv, some rv].filterMap id) =
              f ++ '|' :: (tv ++ '|' :: rv) := by
            simp [joinBar, List.filterMap]
          rw [this, countAux_append_bar, countAux_append_bar, hfc, htc, hrc]

/-- Witness for C4 at a concrete flop-only block. -/
theorem c4_board_cardinality_witness :
    countCards "Ah Kd 7s" = 0 ∨ countCards "Ah Kd 7s" = 3 ∨
      countCards "Ah Kd 7s" = 4 ∨ countCards "Ah Kd 7s" = 5 :=
  c4_board_cardinality_amended ["Hand #42", "*** FLOP *** [Ah Kd 7s]"]
    { hand_id := some "42", site := "pokerok", game := none, limit_type := none,
      stakes_sb := none, stakes_bb := none, currency := none, players := none,
      table_name := none, table_size := none, btn_seat := none, board := "Ah Kd 7s",
      pot_total := none, rake := none, winner_json := [], parse_warnings := "" }
    (by decide) (fun hx => absurd (by decide) hx) (fun hx => absurd (by decide) hx)
theorem splitGo_flatten : ∀ (ls : List String) (cur : List String),
    (splitGo cur ls).flatten = cur ++ ls.map rstripNewlines := by
  intro ls
  induction ls with
  | nil =>
    intro cur
    by_cases hc : cur = []
    · subst hc; rfl
    · simp [splitGo, hc]
  | cons l ls ih =>
    intro cur
    by_cases hh : isHeaderLine l = true
    · by_cases hc : cur = []
      · subst hc
        simp [splitGo, hh, ih]
      · simp [splitGo, hh, hc, ih]
    · simp only [splitGo, Bool.not_eq_true] at hh ⊢
      rw [hh]
      simp [ih]

theorem dropWhile_all_neg {p : Char → Bool} : ∀ (l : List Char),
    (∀ c ∈ l, p c = false) → l.dropWhile p = l := by
  intro l h
  cases l with
  | nil => rfl
  | cons c t =>
    rw [List.dropWhile_cons, h c (List.mem_cons_self c t)]
    simp

/-- Characters removed by `rstripNewlines`, on the character level. -/
theorem rstrip_data (s : String) :
    (rstripNewlines s).data = (s.data.reverse.dropWhile (fun c => c = '\n')).reverse := rfl

theorem charStrip_eq_self (l : List Char) (h : ∀ c ∈ l, (c = '\n') = False) :
    (l.reverse.dropWhile (fun c => c = '\n')).reverse = l := by
  rw [dropWhile_all_neg]
  · exact List.reverse_reverse l
  · intro c hc
    simp only [List.mem_reverse] at hc
    simp [h c hc]

theorem charStrip_append (a b : List Char) (x : Char) (hx : a.getLast? = some x)
    (hxn : (x = '\n') = False) :
    ((a ++ b).reverse.dropWhile (fun c => c = '\n')).reverse =
      a ++ (b.reverse.dropWhile (fun c => c = '\n')).reverse := by
  rw [List.reverse_append, List.dropWhile_append]
  by_cases hb : (b.reverse.dropWhile (fun c => c = '\n')).isEmpty
  · rw [if_pos hb]
    have ha : a.reverse.dropWhile (fun c => c = '\n') = a.reverse := by
      cases hr : a.reverse with
      | nil => rfl
      | cons c t =>
        have : a.getLast? = some c := by
          rw [← List.head?_reverse, hr]
          rfl
        rw [hx] at this
        have hcx : c = x := by injection this.symm
        subst hcx
        rw [List.dropWhile_cons]
        simp [hxn]
    rw [ha, List.reverse_reverse]
    have hbe : b.reverse.dropWhile (fun c => c = '\n') = [] := by
      simpa [List.isEmpty_iff] using hb
    rw [hbe]
    simp
  · rw [if_neg hb]
    rw [List.reverse_append, List.reverse_reverse]
theorem dollarOk_strip (rest : List Char) (h : dollarOk rest = true) :
    ((rest.reverse.dropWhile (fun c => c = '\n')).reverse = rest ∨
      (rest.reverse.dropWhile (fun c => c = '\n')).reverse = rest.dropLast) ∧
    dollarOk ((rest.reverse.dropWhile (fun c => c = '\n')).reverse) = true := by
  unfold dollarOk at h
  rcases (Bool.or_eq_true _ _).mp h with h1 | h2
  · have hall : ∀ c ∈ rest, (c = '\n') = False := by
      intro c hc
      have := List.all_eq_true.mp h1 c hc
      simpa using this
    rw [charStrip_eq_self rest hall]
    refine ⟨Or.inl rfl, ?_⟩
    unfold dollarOk
    rw [h1]
    rfl
  · rcases (Bool.and_eq_true _ _).mp h2 with ⟨hg, hdl⟩
    have hglast : rest.getLast? = some '\n' := by simpa using hg
    obtain ⟨ys, hys⟩ := List.getLast?_eq_some_iff.mp hglast
    subst hys
    have hysall : ∀ c ∈ ys, (c = '\n') = False := by
      intro c hc
      have hmem : c ∈ (ys ++ ['\n']).dropLast := by
        rw [List.dropLast_concat]
        exact hc
      have := List.all_eq_true.mp hdl c hmem
      simpa using this
    have hstrip : ((ys ++ ['\n']).reverse.dropWhile (fun c => c = '\n')).reverse = ys := by
      rw [List.reverse_append]
      simp only [List.reverse_cons, List.reverse_nil, List.nil_append, List.singleton_append]
      rw [List.dropWhile_cons]
      simp only [decide_True, if_true]
      rw [dropWhile_all_neg]
      · exact List.reverse_reverse _
      · intro c hc
        simp only [List.mem_reverse] at hc
        simp [hysall c hc]
    rw [hstrip, List.dropLast_concat]
    refine ⟨Or.inr rfl, ?_⟩
    unfold dollarOk
    have : ys.all (fun c => c ≠ '\n') = true := by
      rw [List.all_eq_true]
      intro c hc
      simp [hysall c hc]
    rw [this]
    rfl
theorem isPyWs_toLower (c : Char) (h : isPyWs c = true) : c.toLower = c := by
  simp only [isPyWs, Bool.or_eq_true, decide_eq_true_eq] at h
  rcases h with ((((h | h) | h) | h) | h) | h <;> subst h <;> decide

theorem ciEq_h_not_ws (c : Char) (hce : ciEq c 'h' = true) : isPyWs c = false := by
  cases hws : isPyWs c
  · rfl
  · exfalso
    have hlow : c.toLower = c := isPyWs_toLower c hws
    have hch : c.toLower = 'h' := by simpa [ciEq] using hce
    rw [hlow] at hch
    subst hch
    exact absurd hws (by decide)

theorem isPyWs_not_wh (c : Char) (h : isPyWs c = true) : isWordHyphen c = false := by
  simp only [isPyWs, Bool.or_eq_true, decide_eq_true_eq] at h
  rcases h with ((((h | h) | h) | h) | h) | h <;> subst h <;> decide

theorem wh_not_ws (c : Char) (h : isWordHyphen c = true) : isPyWs c = false := by
  cases hws : isPyWs c
  · rfl
  · rw [isPyWs_not_wh c hws] at h
    exact Bool.noConfusion h

theorem wh_not_newline (c : Char) (h : isWordHyphen c = true) : (c = '\n') = False := by
  simp only [eq_iff_iff, iff_false]
  intro hc
  subst hc
  exact absurd h (by decide)

theorem ciDrop_shape : ∀ (pat cs rest : List Char), ciDrop pat cs = some rest →
    ∃ pre, cs = pre ++ rest ∧ (∀ X, ciDrop pat (pre ++ X) = some X) ∧
      (∀ p0 pt, pat = p0 :: pt → ∃ c0 pre2, pre = c0 :: pre2 ∧ ciEq c0 p0 = true) := by
  intro pat
  induction pat with
  | nil =>
    intro cs rest h
    simp only [ciDrop, Option.some.injEq] at h
    subst h
    exact ⟨[], rfl, fun X => rfl, fun p0 pt hx => List.noConfusion hx⟩
  | cons p ps ih =>
    intro cs rest h
    cases cs with
    | nil => exact Option.noConfusion h
    | cons c cs2 =>
      simp only [ciDrop] at h
      by_cases hce : ciEq c p = true
      · rw [if_pos hce] at h
        obtain ⟨pre, heq, hre, _⟩ := ih cs2 rest h
        refine ⟨c :: pre, by simp [heq], ?_, ?_⟩
        · intro X
          simp only [List.cons_append, ciDrop, if_pos hce]
          exact hre X
        · intro p0 pt hx
          injection hx with h1 h2
          subst h1
          exact ⟨c, pre, rfl, hce⟩
      · rw [if_neg hce] at h
        exact Option.noConfusion h

theorem head_dropWhile_not (p : Char → Bool) : ∀ (l : List Char) (c : Char),
    (l.dropWhile p).head? = some c → p c = false := by
  intro l
  induction l with
  | nil => intro c h; simp at h
  | cons a t ih =>
    intro c h
    rw [List.dropWhile_cons] at h
    by_cases hp : p a = true
    · rw [if_pos hp] at h
      exact ih c h
    · rw [if_neg hp] at h
      simp only [List.head?_cons, Option.some.injEq] at h
      subst h
      simpa using hp

theorem prefix_head? {l1 l2 : List Char} (hp : l1 <+: l2) (c : Char)
    (h : l1.head? = some c) : l2.head? = some c := by
  obtain ⟨t, rfl⟩ := hp
  cases l1 with
  | nil => simp at h
  | cons a t2 => simpa using h
theorem isHeaderLine_rstrip (l : String) (h : isHeaderLine l = true) :
    isHeaderLine (rstripNewlines l) = true := by
  unfold isHeaderLine at h ⊢
  obtain ⟨id0, hm⟩ := Option.isSome_iff_exists.mp h
  simp only [matchHandHeader] at hm
  cases hcd : ciDrop ['h', 'a', 'n', 'd'] (l.data.dropWhile isPyWs) with
  | none => rw [hcd] at hm; exact Option.noConfusion hm
  | some cs2 =>
  rw [hcd] at hm
  simp only [Option.some_bind] at hm
  by_cases hhash : (cs2.dropWhile isPyWs).head? = some '#'
  case neg => rw [if_neg hhash] at hm; exact Option.noConfusion hm
  case pos =>
  rw [if_pos hhash] at hm
  obtain ⟨cs4, hcs3⟩ : ∃ cs4, cs2.dropWhile isPyWs = '#' :: cs4 := by
    cases hx : cs2.dropWhile isPyWs with
    | nil => rw [hx] at hhash; simp at hhash
    | cons a t =>
      rw [hx] at hhash
      simp only [List.head?_cons, Option.some.injEq] at hhash
      subst hhash
      exact ⟨t, rfl⟩
  rw [hcs3, List.tail_cons] at hm
  cases hcond : (decide ((cs4.dropWhile isPyWs).takeWhile isWordHyphen ≠ []) &&
      dollarOk ((cs4.dropWhile isPyWs).dropWhile isWordHyphen)) with
  | false => rw [hcond] at hm; simp at hm
  | true =>
  clear hm
  have hA : ∀ c ∈ l.data.takeWhile isPyWs, isPyWs c = true :=
    fun c hc => List.mem_takeWhile_imp hc
  have hB : ∀ c ∈ cs2.takeWhile isPyWs, isPyWs c = true :=
    fun c hc => List.mem_takeWhile_imp hc
  have hC : ∀ c ∈ cs4.takeWhile isPyWs, isPyWs c = true :=
    fun c hc => List.mem_takeWhile_imp hc
  have hwh : ∀ c ∈ (cs4.dropWhile isPyWs).takeWhile isWordHyphen, isWordHyphen c = true :=
    fun c hc => List.mem_takeWhile_imp hc
  rcases (Bool.and_eq_true _ _).mp hcond with ⟨hidne, hdollar⟩
  have hid : (cs4.dropWhile isPyWs).takeWhile isWordHyphen ≠ [] := of_decide_eq_true hidne
  obtain ⟨pre, hpre, hre, hhead⟩ := ciDrop_shape _ _ _ hcd
  obtain ⟨c0h, pre2, hpre2, hc0h⟩ := hhead 'h' _ rfl
  have hresthead : ∀ c, ((cs4.dropWhile isPyWs).dropWhile isWordHyphen).head? = some c →
      isWordHyphen c = false :=
    fun c hc => head_dropWhile_not isWordHyphen _ c hc
  obtain ⟨hrest2eq, hdOk2⟩ :=
    dollarOk_strip ((cs4.dropWhile isPyWs).dropWhile isWordHyphen) hdollar
  have hrest2head : ∀ c,
      (((((cs4.dropWhile isPyWs).dropWhile isWordHyphen).reverse.dropWhile
          (fun c => c = '\n')).reverse).head? = some c) → isWordHyphen c = false := by
    intro c hc
    rcases hrest2eq with he | he
    · rw [he] at hc
      exact hresthead c hc
    · rw [he] at hc
      exact hresthead c (prefix_head? (List.dropLast_prefix _) c hc)
  have hidlast : ∃ z, ((cs4.dropWhile isPyWs).takeWhile isWordHyphen).getLast? = some z ∧
      (z = '\n') = False := by
    obtain ⟨z, hz⟩ := Option.isSome_iff_exists.mp
      (by rw [List.getLast?_isSome]; exact hid)
    exact ⟨z, hz, wh_not_newline z (hwh z (List.mem_of_getLast?_eq_some hz))⟩
  obtain ⟨z, hzlast, hznn⟩ := hidlast
  have hDfull : l.data =
      (l.data.takeWhile isPyWs ++ (pre ++ (cs2.takeWhile isPyWs ++ ('#' ::
        (cs4.takeWhile isPyWs ++ (cs4.dropWhile isPyWs).takeWhile isWordHyphen))))) ++
      (cs4.dropWhile isPyWs).dropWhile isWordHyphen := by
    conv_lhs => rw [← List.takeWhile_append_dropWhile (p := isPyWs) (l := l.data)]
    rw [hpre]
    conv_lhs => rw [← List.takeWhile_append_dropWhile (p := isPyWs) (l := cs2), hcs3]
    conv_lhs => rw [← List.takeWhile_append_dropWhile (p := isPyWs) (l := cs4)]
    conv_lhs => rw [← List.takeWhile_append_dropWhile (p := isWordHyphen)
      (l := cs4.dropWhile isPyWs)]
    simp [List.append_assoc]
  have hPlast : (l.data.takeWhile isPyWs ++ (pre ++ (cs2.takeWhile isPyWs ++ ('#' ::
        (cs4.takeWhile isPyWs ++ (cs4.dropWhile isPyWs).takeWhile isWordHyphen))))).getLast?
      = some z := by
    simp only [List.getLast?_append, List.getLast?_cons, hzlast]
    rfl
  have hstrip : (rstripNewlines l).data =
      l.data.takeWhile isPyWs ++ (pre ++ (cs2.takeWhile isPyWs ++ ('#' ::
        (cs4.takeWhile isPyWs ++ ((cs4.dropWhile isPyWs).takeWhile isWordHyphen ++
          ((((cs4.dropWhile isPyWs).dropWhile isWordHyphen).reverse.dropWhile
            (fun c => c = '\n')).reverse)))))) := by
    rw [rstrip_data]
    conv_lhs => rw [hDfull]
    rw [charStrip_append _ _ z hPlast hznn]
    simp [List.append_assoc]
  rw [Option.isSome_iff_exists]
  refine ⟨String.mk ((cs4.dropWhile isPyWs).takeWhile isWordHyphen), ?_⟩
  simp only [matchHandHeader]
  rw [hstrip]
  rw [List.dropWhile_append_of_pos hA]
  rw [hpre2, List.cons_append, List.dropWhile_cons, ciEq_h_not_ws c0h hc0h]
  simp only [Bool.false_eq_true, if_false]
  rw [← List.cons_append, ← hpre2, hre]
  simp only [Option.some_bind]
  rw [List.dropWhile_append_of_pos hB, List.dropWhile_cons,
    show isPyWs '#' = false from by decide]
  simp only [Bool.false_eq_true, if_false, List.head?_cons, List.tail_cons, if_true]
  rw [List.dropWhile_append_of_pos hC]
  cases hidc : (cs4.dropWhile isPyWs).takeWhile isWordHyphen with
  | nil => exact absurd hidc hid
  | cons i0 irest =>
    have hi0 : isWordHyphen i0 = true := by
      refine hwh i0 ?_
      rw [hidc]
      exact List.mem_cons_self i0 irest
    rw [List.cons_append, List.dropWhile_cons, wh_not_ws i0 hi0]
    simp only [Bool.false_eq_true, if_false]
    rw [← List.cons_append, ← hidc]
    have htk : ((cs4.dropWhile isPyWs).takeWhile isWordHyphen ++
        ((((cs4.dropWhile isPyWs).dropWhile isWordHyphen).reverse.dropWhile
          (fun c => c = '\n')).reverse)).takeWhile isWordHyphen =
        (cs4.dropWhile isPyWs).takeWhile isWordHyphen := by
      rw [List.takeWhile_append_of_pos hwh]
      cases hr2 : (((cs4.dropWhile isPyWs).dropWhile isWordHyphen).reverse.dropWhile
          (fun c => c = '\n')).reverse with
      | nil => simp
      | cons r0 rr =>
        rw [List.takeWhile_cons]
        have hr0 : isWordHyphen r0 = false := by
          refine hrest2head r0 ?_
          rw [hr2]
          rfl
        rw [hr0]
        simp
    have hdr : ((cs4.dropWhile isPyWs).takeWhile isWordHyphen ++
        ((((cs4.dropWhile isPyWs).dropWhile isWordHyphen).reverse.dropWhile
          (fun c => c = '\n')).reverse)).dropWhile isWordHyphen =
        ((((cs4.dropWhile isPyWs).dropWhile isWordHyphen).reverse.dropWhile
          (fun c => c = '\n')).reverse) := by
      rw [List.dropWhile_append_of_pos hwh]
      cases hr2 : (((cs4.dropWhile isPyWs).dropWhile isWordHyphen).reverse.dropWhile
          (fun c => c = '\n')).reverse with
      | nil => rfl
      | cons r0 rr =>
        rw [List.dropWhile_cons]
        have hr0 : isWordHyphen r0 = false := by
          refine hrest2head r0 ?_
          rw [hr2]
          rfl
        rw [hr0]
        simp
    rw [htk, hdr]
    have hcnd : (decide ((cs4.dropWhile isPyWs).takeWhile isWordHyphen ≠ []) &&
        dollarOk ((((cs4.dropWhile isPyWs).dropWhile isWordHyphen).reverse.dropWhile
          (fun c => c = '\n')).reverse)) = true := by
      rw [Bool.and_eq_true]
      exact ⟨decide_eq_true hid, hdOk2⟩
    simp only [hcnd, if_true]
theorem startsHeader_singleton (x : String) : startsHeader [x] = isHeaderLine x := rfl

theorem startsHeader_append (cur : List String) (x : String) (hc : cur ≠ []) :
    startsHeader (cur ++ [x]) = startsHeader cur := by
  unfold startsHeader
  cases cur with
  | nil => exact absurd rfl hc
  | cons a t => simp

theorem splitGo_all_header : ∀ (ls : List String) (cur : List String),
    cur ≠ [] → startsHeader cur = true →
    ∀ b ∈ splitGo cur ls, startsHeader b = true := by
  intro ls
  induction ls with
  | nil =>
    intro cur hne hsh b hb
    simp only [splitGo] at hb
    rw [if_neg hne] at hb
    rw [List.mem_singleton.mp hb]
    exact hsh
  | cons l ls ih =>
    intro cur hne hsh b hb
    simp only [splitGo] at hb
    by_cases hh : isHeaderLine l = true
    · rw [if_pos hh, if_neg hne] at hb
      rcases List.mem_cons.mp hb with hb2 | hb2
      · rw [hb2]; exact hsh
      · refine ih [rstripNewlines l] (by simp) ?_ b hb2
        rw [startsHeader_singleton]
        exact isHeaderLine_rstrip l hh
    · rw [if_neg hh] at hb
      refine ih (cur ++ [rstripNewlines l]) (by simp [hne]) ?_ b hb
      rw [startsHeader_append cur _ hne]
      exact hsh

theorem splitGo_tail_header : ∀ (ls cur : List String),
    ∀ b ∈ (splitGo cur ls).drop 1, startsHeader b = true := by
  intro ls
  induction ls with
  | nil =>
    intro cur b hb
    simp only [splitGo] at hb
    by_cases hc : cur = []
    · rw [if_pos hc] at hb; simp at hb
    · rw [if_neg hc] at hb; simp at hb
  | cons l ls ih =>
    intro cur b hb
    simp only [splitGo] at hb
    by_cases hh : isHeaderLine l = true
    · rw [if_pos hh] at hb
      by_cases hc : cur = []
      · rw [if_pos hc] at hb
        refine splitGo_all_header ls [rstripNewlines l] (by simp) ?_ b
          (List.drop_subset 1 _ hb)
        rw [startsHeader_singleton]
        exact isHeaderLine_rstrip l hh
      · rw [if_neg hc] at hb
        simp only [List.drop_succ_cons, List.drop_zero] at hb
        refine splitGo_all_header ls [rstripNewlines l] (by simp) ?_ b hb
        rw [startsHeader_singleton]
        exact isHeaderLine_rstrip l hh
    · rw [if_neg hh] at hb
      exact ih (cur ++ [rstripNewlines l]) b hb

/-- **C6** (amended): every block the segmenter yields after the first
begins with a line matching the hand-header pattern, but the leading
headerless fragment is **not** discarded — it is yielded as the first
block (and every input line reappears, newline-stripped, in exactly one
block, in order). -/
theorem c6_segmenter_amended (lines : List String) (i : Nat) (b : List String)
    (hi : 0 < i) (hb : (split_into_hands lines)[i]? = some b) :
    startsHeader b = true ∧
    (split_into_hands lines).flatten = lines.map rstripNewlines := by
  constructor
  · cases hsp : split_into_hands lines with
    | nil => rw [hsp] at hb; simp at hb
    | cons hd tl =>
      rw [hsp] at hb
      obtain ⟨j, rfl⟩ : ∃ j, i = j + 1 := ⟨i - 1, by omega⟩
      rw [List.getElem?_cons_succ] at hb
      have hmem : b ∈ tl := List.getElem?_mem hb
      have hall := splitGo_tail_header lines []
      rw [show splitGo [] lines = split_into_hands lines from rfl, hsp] at hall
      exact hall b (by simpa using hmem)
  · have := splitGo_flatten lines []
    simpa using this

/-- Witness for C6 at a concrete input with a leading junk line. -/
theorem c6_segmenter_amended_witness :
    startsHeader ["Hand #61"] = true ∧
    (split_into_hands ["x", "Hand #61"]).flatten = ["x", "Hand #61"].map rstripNewlines :=
  c6_segmenter_amended ["x", "Hand #61"] 1 ["Hand #61"] (by decide) (by decide)

/-- **C2** (code bug): the claim says the batch-level operation never
raises for input-content reasons.  The code contradicts it: the `players`
key is always present in the hand dict, so `hand.get(players, 0)` returns
`None` for a hand with no seat lines, and the configured `min_players`
comparison `None < 2` raises a `TypeError` that propagates out of
`process_input`.  This theorem evaluates the embedded code at the failing
input. -/
theorem c2_batch_raises_on_content :
    process_input [["Hand #21"]] ⟨none, some 2, none⟩ =
      Except.error "TypeError: unorderable types NoneType and int" := by
  rfl

/-- **C3** (code bug): the claim says a hand with null `players` is
treated as 0 by a configured min/max predicate and the comparison
succeeds.  In the code the `dict.get` default never applies (the key is
present with value `None`), so the comparison raises instead of excluding
the hand; the parsed hand indeed has `players = none`. -/
theorem c3_null_players_comparison_raises :
    (parse_hand ["Hand #31"]).1.map (fun h => h.players) = some none ∧
    process_input [["Hand #31"]] ⟨none, some 1, none⟩ =
      Except.error "TypeError: unorderable types NoneType and int" := by
  exact ⟨rfl, rfl⟩

/-- **C4** counterexample: a block with a turn line and no flop line is
parsed successfully with a one-card board, refuting the claim that a
parsed board never has 1 card. -/
theorem c4_turn_only_one_card_board :
    (parse_hand ["Hand #40", "*** TURN *** [2h]"]).1.map (fun h => countCards h.board) =
      some 1 := by
  rfl

/-- **C5** counterexample: on the exact scenario block the hand is parsed
(`map` hits the `some` case) but `stakes_sb` is `none`, not 0.01: the
stakes pattern requires the small-blind digits immediately after `(`, and
the `$` in `($0.01/$0.02 USD)` defeats it. -/
theorem c5_scenario_stakes_not_extracted :
    (parse_hand c5Lines).1.map (fun h => h.stakes_sb) = some none := by
  rfl

/-- **C5** (amended): the scenario block yields one HandRecord with
`hand_id = "123456789"`, `players = 2`, `board = "Ah Kd 7s"`,
`pot_total = 0.12`, `rake = 0`, one winner entry, and exactly five
ActionRecords ending with a `return_uncalled` of −0.10 — but `game`,
`limit_type`, `stakes_sb`, `stakes_bb` and `currency` are all null,
because `RE_LIMIT` cannot match a stakes token prefixed with `$`. -/
theorem c5_scenario_amended :
    (parse_hand c5Lines).1 =
      some { hand_id := some "123456789", site := "pokerok", game := none, limit_type := none,
             stakes_sb := none, stakes_bb := none, currency := none, players := some 2,
             table_name := none, table_size := some 2, btn_seat := none,
             board := "Ah Kd 7s", pot_total := some (mkRat 12 100), rake := some 0,
             winner_json := [{ player := "Hero", amount := some (mkRat 12 100) }],
             parse_warnings := "" } ∧
    (parse_hand c5Lines).2.length = 5 ∧
    (parse_hand c5Lines).2.getLast? =
      some { hand_id := some "123456789", street := "flop", player := "Hero",
             action := "return_uncalled", amount := some (-(mkRat 10 100)) } := by
  refine ⟨by decide, rfl, by decide⟩

/-- **C6** counterexample: lines before the first header are not
discarded — the leading headerless fragment is yielded as its own block. -/
theorem c6_leading_fragment_yielded :
    split_into_hands ["junk", "Hand #6"] = [["junk"], ["Hand #6"]] := by
  rfl

/-- **C7** (code bug): the claim says an unparsable captured numeric token
only nulls the field and never aborts the hand.  For the uncalled-bet
return the code computes `-to_float_safe(amt)`; with the unparsable token
`1.2.3` (which the `RE_RETURN` pattern does capture) `to_float_safe`
returns `None`, the unary minus raises, and the whole hand is discarded
with no actions, instead of being emitted with a null amount. -/
theorem c7_unparsable_return_amount_discards_hand :
    (matchReturn "Uncalled bet of 1.2.3 returned to Hero").isSome = true ∧
    to_float_safe (some "1.2.3") = none ∧
    parse_hand ["Hand #7", "Uncalled bet of 1.2.3 returned to Hero"] = (none, []) := by
  exact ⟨rfl, rfl, rfl⟩

/-- **C8** counterexample: a stakes line written with comma decimal
separators is parsed with `stakes_sb = none` — the Game/Stakes extractor
does not accept commas, refuting the claim. -/
theorem c8_comma_stakes_rejected :
    (parse_hand c8CommaLines).1.map (fun h => h.stakes_sb) = some none := by
  rfl

/-- **C8** (amended): comma tolerance lives only in `to_float_safe`
(which maps `0,01` to 0.01); the stakes capture class `[\d\.]+` admits
only digits and dots, so a comma-written stakes line leaves both stakes
fields null, while the dot-written line extracts them. -/
theorem c8_separator_amended :
    (parse_hand c8CommaLines).1.map (fun h => (h.stakes_sb, h.stakes_bb)) =
      some (none, none) ∧
    (parse_hand c8DotLines).1.map (fun h => (h.stakes_sb, h.stakes_bb)) =
      some (some (mkRat 1 100), some (mkRat 2 100)) ∧
    to_float_safe (some "0,01") = some (mkRat 1 100) := by
  refine ⟨rfl, by decide, by decide⟩

/-- **C10**: a filter configured with `min_players = 0` or
`max_players = 0` behaves exactly like an unconfigured one — the code
tests the value for truthiness, so the zero bound never excludes any
hand. -/
theorem c10_zero_bound_like_unset (files : List (List String)) (g : Option (List String))
    (mn mx : Option Int) :
    process_input files ⟨g, some 0, mx⟩ = process_input files ⟨g, none, mx⟩ ∧
    process_input files ⟨g, mn, some 0⟩ = process_input files ⟨g, mn, none⟩ := by
  exact ⟨rfl, rfl⟩

/-- Witness for C10 at a concrete input. -/
theorem c10_zero_bound_like_unset_witness :
    process_input [["Hand #10"]] ⟨none, some 0, none⟩ =
      process_input [["Hand #10"]] ⟨none, none, none⟩ ∧
    process_input [["Hand #10"]] ⟨none, none, some 0⟩ =
      process_input [["Hand #10"]] ⟨none, none, none⟩ :=
  c10_zero_bound_like_unset [["Hand #10"]] none none none

end HH
